import Mathlib

/-!
Verification development for the TrollDoc model-documentation generator
(`modeldoc.py`): a shallow embedding of its parsing grammar, cross-reference
linker, parameter-substitution and legend passes, together with theorems
about the behaviours claimed in the specification.

All text is modelled as `List Char` / `String` over the ASCII range that the
tool's inputs use (the source reads Latin-1 single-byte text; identifier and
marker matching in the claims involves ASCII only).
-/

namespace TrollDoc

/-! ### Character helpers -/

/-- Python `str.isspace` for the ASCII characters `str.strip()` removes. -/
def pySpace (c : Char) : Bool :=
  c = ' ' || c = '\t' || c = '\n' || c = '\r' || c = '\x0b' || c = '\x0c'

/-- ASCII lower-casing of one character, as Python `str.lower()` acts on ASCII. -/
def lowerChar (c : Char) : Char :=
  if 65 ≤ c.toNat ∧ c.toNat ≤ 90 then Char.ofNat (c.toNat + 32) else c

/-- Python `str.lower()` (ASCII fragment). -/
def pyLower (s : List Char) : List Char := s.map lowerChar

/-- Python `str.strip()`: remove whitespace from both ends. -/
def pyStrip (s : List Char) : List Char :=
  ((s.dropWhile pySpace).reverse.dropWhile pySpace).reverse

/-- `String` wrapper for `pyLower`. -/
def pyLowerS (s : String) : String := ⟨pyLower s.data⟩

/-- `String` wrapper for `pyStrip`. -/
def pyStripS (s : String) : String := ⟨pyStrip s.data⟩

/-- A word character of Python's regex `\b`: letter, digit or underscore
(the source's regexes run over ASCII text). -/
def wordChar (c : Char) : Bool := c.isAlphanum || c = '_'

/-- Word-ness of an optional character; out-of-string counts as non-word. -/
def wordOpt (wc : Char → Bool) : Option Char → Bool
  | none => false
  | some c => wc c

/-! ### Substring search (Python `in` on strings) -/

/-- Does `s` start with `pat`? (`str.startswith`). -/
def startsWithL : List Char → List Char → Bool
  | [], _ => true
  | _ :: _, [] => false
  | p :: ps, c :: cs => p = c && startsWithL ps cs

/-- Python `pat in s`: contiguous-substring test. -/
def containsSub (pat : List Char) : List Char → Bool
  | [] => startsWithL pat []
  | c :: cs => startsWithL pat (c :: cs) || containsSub pat cs

/-! ### The regex `\b(name)\b`: matching, search and substitution

The source compiles `r'\b(' + name + r')\b'`.  Names come from the grammar's
identifiers (letters, digits, `_`, `.`), so the only regex metacharacter that
can occur inside `name` is `.`, which matches any character except a newline;
all other characters match literally. -/

/-- One pattern character against one subject character (`.` is the regex
wildcard, everything else literal). -/
def patCharM (p c : Char) : Bool := if p = '.' then c != '\n' else p = c

/-- Match the whole pattern at the head of `s`: returns the matched subject
characters and the rest of `s`. -/
def patMatch : List Char → List Char → Option (List Char × List Char)
  | [], s => some ([], s)
  | _ :: _, [] => none
  | p :: ps, c :: cs =>
    if patCharM p c then
      match patMatch ps cs with
      | some (m, r) => some (c :: m, r)
      | none => none
    else none

/-- Match `\b(pat)\b` at the head of `s`, where `prev` is the subject character
immediately before the current position (none at string start).  `\b` holds at
a position iff exactly one of its two neighbouring characters is a word
character, string ends counting as non-word. -/
def bMatchAt (pat : List Char) (prev : Option Char) (s : List Char) :
    Option (List Char × List Char) :=
  match patMatch pat s with
  | some (m, r) =>
    if (wordOpt wordChar prev != wordOpt wordChar m.head?) &&
       (wordOpt wordChar m.getLast? != wordOpt wordChar r.head?) then
      some (m, r)
    else none
  | none => none

/-- `re.search` for `\b(pat)\b`: is there a match at any position? -/
def bSearchAux (pat : List Char) : Option Char → List Char → Bool
  | prev, [] => (bMatchAt pat prev []).isSome
  | prev, c :: cs => (bMatchAt pat prev (c :: cs)).isSome || bSearchAux pat (some c) cs

/-- `re.search(r'\b(' + pat + r')\b', s)` as a Boolean. -/
def bSearch (pat s : List Char) : Bool := bSearchAux pat none s

/-- `re.sub` worker: scan left to right, replace each non-overlapping match of
`\b(pat)\b` by `repl m` where `m` is the matched text, resume after the match
(the boundary context for later matches is the original matched characters).
`fuel` bounds the recursion; `s.length` suffices because every step consumes at
least one subject character when `pat` is nonempty. -/
def bSubAux (pat : List Char) (repl : List Char → List Char) :
    Nat → Option Char → List Char → List Char
  | 0, _, s => s
  | _ + 1, _, [] => []
  | fuel + 1, prev, c :: cs =>
    match bMatchAt pat prev (c :: cs) with
    | some (m, r) => repl m ++ bSubAux pat repl fuel m.getLast? r
    | none => c :: bSubAux pat repl fuel (some c) cs

/-- `re.sub(r'\b(' + pat + r')\b', repl, s)`.  The pattern is never empty in
the source (equation names and table keys are nonempty tokens); the empty-case
guard merely keeps the function total. -/
def bSub (pat : List Char) (repl : List Char → List Char) (s : List Char) : List Char :=
  match pat with
  | [] => s
  | _ :: _ => bSubAux pat repl s.length none s

/-! ### Declarative boundary-occurrence check (the specification's wording)

The spec says a name is "referenced" iff it occurs surrounded by
non-identifier characters or string start/end.  `occursAt wc pat s i` says the
literal token `pat` occurs at position `i` of `s` with such boundaries, for a
given identifier-character set `wc`. -/

/-- Literal occurrence of `pat` at position `i` of `s`, with both neighbours
(or string ends) forming a word/non-word transition for char-set `wc`. -/
def occursAt (wc : Char → Bool) (pat s : List Char) (i : Nat) : Bool :=
  ((s.drop i).take pat.length == pat) &&
  (wordOpt wc (if i = 0 then none else s[i - 1]?) != wordOpt wc pat.head?) &&
  (wordOpt wc pat.getLast? != wordOpt wc s[i + pat.length]?)

/-- Is there any boundary-bound literal occurrence of `pat` in `s`? -/
def specOccurs (wc : Char → Bool) (pat s : List Char) : Bool :=
  (List.range (s.length + 1)).any (occursAt wc pat s)

/-- The claim's identifier-character set: letters, digits, underscore and dot. -/
def specIdentCharDot (c : Char) : Bool := c.isAlphanum || c = '_' || c = '.'

/-! ### Data model

`RawEq`/`RawRegion` is what the grammar produces (`troll_BNF` results:
`name`, `left_side`, `right_side` tokens; a region's optional label).
`Eqn`/`Region` is the pipeline's equation record; Python adds the keys
`whole_equation`, `variables`, `appears_in`, `legend` as the stages run, so
here they are present from the start with the corresponding initial values
(`legend` is an `Option` standing for Python's "no legend assigned yet"). -/

structure RawEq where
  name : String
  left_side : String
  right_side : String
deriving DecidableEq, Repr

structure RawRegion where
  name : Option String
  equations : List RawEq
deriving DecidableEq, Repr

structure Eqn where
  name : String
  left_side : String
  right_side : String
  whole_equation : String
  «variables» : List String
  appears_in : List String
  legend : Option String
deriving DecidableEq, Repr

structure Region where
  name : Option String
  equations : List Eqn
deriving DecidableEq, Repr

/-- Apply `f` to every equation of a region (the per-region loops of the
pipeline stages). -/
def mapRegionEqs (f : Eqn → Eqn) (r : Region) : Region :=
  {r with equations := r.equations.map f}

/-- All equations of a model in region-then-equation order. -/
def flatEqs : List Region → List Eqn
  | [] => []
  | r :: rest => r.equations ++ flatEqs rest

/-! ### The grammar (`troll_BNF`), embedded as a positional recursive-descent
parser specialised to the pyparsing expression the source builds.

pyparsing semantics captured here:
* every terminal first runs `preParse`: skip whitespace (`" \t\n"`) and the
  ignore expression `cppStyleComment | voidRegion`, repeatedly;
* `And` never backtracks a succeeded component; `Optional(e)` commits to `e`
  whenever `e` matches;
* `restOfLine` (`Regex(".*").leaveWhitespace()`) consumes to just before the
  next newline, possibly matching the empty string, with no space skipping;
* `SkipTo(regions)` probes every position until `regions` matches;
* `CaselessKeyword` matches case-insensitively and requires the characters
  on both sides to be outside `alphanums + "_$"` (or string ends);
* `OneOrMore` stops at the first failure; `parseString(parseAll=False)`
  ignores trailing text.
Loops carry explicit fuel; `s.length + 1` always suffices because each
iteration consumes at least one character. -/

def wsChar (c : Char) : Bool := c = ' ' || c = '\t' || c = '\n'

/-- pyparsing `printables`: ASCII 33..126. -/
def printableChar (c : Char) : Bool := 33 ≤ c.toNat && c.toNat ≤ 126

/-- First character of `variable`: `Word(alphas + "_.", alphanums + "_.")`. -/
def varInitChar (c : Char) : Bool := c.isAlpha || c = '_' || c = '.'

/-- Body character of `variable`. -/
def varBodyChar (c : Char) : Bool := c.isAlphanum || c = '_' || c = '.'

/-- `nonequal`: every printable except `=`, plus space, tab, newline. -/
def nonequalChar (c : Char) : Bool := (printableChar c && c != '=') || wsChar c

/-- `noncomma`: every printable except `,`, plus space, tab, newline. -/
def noncommaChar (c : Char) : Bool := (printableChar c && c != ',') || wsChar c

/-- `Keyword` identifier characters (`alphanums + "_$"`). -/
def kwIdentChar (c : Char) : Bool := c.isAlphanum || c = '_' || c = '$'

def skipWsAux (s : List Char) : Nat → Nat → Nat
  | 0, pos => pos
  | fuel + 1, pos =>
    match s[pos]? with
    | some c => if wsChar c then skipWsAux s fuel (pos + 1) else pos
    | none => pos

/-- Skip pyparsing default whitespace. -/
def skipWs (s : List Char) (pos : Nat) : Nat := skipWsAux s (s.length + 1) pos

/-- Match the literal characters `lit` exactly at `pos`. -/
def matchLit : List Char → List Char → Nat → Option Nat
  | [], _, pos => some pos
  | l :: ls, s, pos =>
    match s[pos]? with
    | some c => if c = l then matchLit ls s (pos + 1) else none
    | none => none

/-- Match `lit` case-insensitively at `pos` (`CaselessLiteral`). -/
def matchCaseless : List Char → List Char → Nat → Option Nat
  | [], _, pos => some pos
  | l :: ls, s, pos =>
    match s[pos]? with
    | some c => if lowerChar c = lowerChar l then matchCaseless ls s (pos + 1) else none
    | none => none

def restOfLineAt (s : List Char) : Nat → Nat → List Char × Nat
  | 0, pos => ([], pos)
  | fuel + 1, pos =>
    match s[pos]? with
    | some c =>
      if c = '\n' then ([], pos)
      else
        let (t, p) := restOfLineAt s fuel (pos + 1)
        (c :: t, p)
    | none => ([], pos)

/-- `restOfLine`: everything up to (not including) the next newline. -/
def restOfLineTok (s : List Char) (pos : Nat) : List Char × Nat :=
  restOfLineAt s (s.length + 1) pos

def lineCommentTail (s : List Char) : Nat → Nat → Nat
  | 0, pos => pos
  | fuel + 1, pos =>
    match s[pos]? with
    | some c => if c = '\n' then pos else lineCommentTail s fuel (pos + 1)
    | none => pos

def blockCommentTail (s : List Char) : Nat → Nat → Option Nat
  | 0, _ => none
  | fuel + 1, pos =>
    match s[pos]? with
    | some '*' =>
      match s[pos + 1]? with
      | some '/' => some (pos + 2)
      | _ => blockCommentTail s fuel (pos + 1)
    | some _ => blockCommentTail s fuel (pos + 1)
    | none => none

/-- `cppStyleComment`: a closed `/* ... */` block comment or a `//` comment
running to the end of the line. -/
def cppCommentP (s : List Char) (pos : Nat) : Option Nat :=
  match matchLit ['/', '*'] s pos with
  | some p1 => blockCommentTail s (s.length + 1) p1
  | none =>
    match matchLit ['/', '/'] s pos with
    | some p1 => some (lineCommentTail s (s.length + 1) p1)
    | none => none

def cppLoopAux (s : List Char) : Nat → Nat → Nat
  | 0, pos => pos
  | fuel + 1, pos =>
    match cppCommentP s (skipWs s pos) with
    | some p2 => cppLoopAux s fuel p2
    | none => pos

/-- `voidRegion`: `CaselessLiteral("--region") + Optional(restOfLine) +
Optional(OneOrMore(cppStyleComment)) + CaselessLiteral("--endregion") +
Optional(restOfLine)` (called with leading whitespace already skipped). -/
def voidRegionP (s : List Char) (pos : Nat) : Option Nat :=
  match matchCaseless "--region".data s pos with
  | some p1 =>
    let p2 := (restOfLineTok s p1).2
    let p3 := cppLoopAux s (s.length + 1) p2
    match matchCaseless "--endregion".data s (skipWs s p3) with
    | some p4 => some (restOfLineTok s p4).2
    | none => none
  | none => none

def preParseAux (s : List Char) : Nat → Nat → Nat
  | 0, pos => pos
  | fuel + 1, pos =>
    let p1 := skipWs s pos
    match cppCommentP s p1 with
    | some p2 => preParseAux s fuel p2
    | none =>
      match voidRegionP s p1 with
      | some p2 => preParseAux s fuel p2
      | none => p1

/-- pyparsing `preParse`: skip whitespace and the ignore expression
`cppStyleComment | voidRegion` until neither applies. -/
def preParse (s : List Char) (pos : Nat) : Nat := preParseAux s (s.length + 1) pos

/-- `Literal`, with the terminal's `preParse`. -/
def litTok (lit : List Char) (s : List Char) (pos : Nat) : Option Nat :=
  matchLit lit s (preParse s pos)

/-- `CaselessLiteral`, with the terminal's `preParse`. -/
def caselessTok (lit : List Char) (s : List Char) (pos : Nat) : Option Nat :=
  matchCaseless lit s (preParse s pos)

/-- `CaselessKeyword`: caseless match plus the boundary checks on the
characters just before and after the matched range. -/
def keywordTok (kw : List Char) (s : List Char) (pos : Nat) : Option Nat :=
  let p := preParse s pos
  match matchCaseless kw s p with
  | some p2 =>
    let okBefore :=
      match p with
      | 0 => true
      | q + 1 =>
        match s[q]? with
        | some c => !kwIdentChar c
        | none => true
    let okAfter :=
      match s[p2]? with
      | some c => !kwIdentChar c
      | none => true
    if okBefore && okAfter then some p2 else none
  | none => none

def spanTokAux (body : Char → Bool) (s : List Char) : Nat → Nat → List Char × Nat
  | 0, pos => ([], pos)
  | fuel + 1, pos =>
    match s[pos]? with
    | some c =>
      if body c then
        let (t, p) := spanTokAux body s fuel (pos + 1)
        (c :: t, p)
      else ([], pos)
    | none => ([], pos)

/-- `Word(initChars, bodyChars)`: skip whitespace/ignorables, then take one
`init` character followed by the maximal run of `body` characters. -/
def wordTok (init body : Char → Bool) (s : List Char) (pos : Nat) :
    Option (List Char × Nat) :=
  let p := preParse s pos
  match s[p]? with
  | some c =>
    if init c then
      let (t, p2) := spanTokAux body s (s.length + 1) (p + 1)
      some (c :: t, p2)
    else none
  | none => none

/-- `equation`: `variable("name") + ":" + Word(nonequal)("left_side") + "=" +
Word(noncomma)("right_side") + Optional(",")`. -/
def equationP (s : List Char) (pos : Nat) : Option (RawEq × Nat) :=
  match wordTok varInitChar varBodyChar s pos with
  | some (nm, p1) =>
    match litTok [':'] s p1 with
    | some p2 =>
      match wordTok nonequalChar nonequalChar s p2 with
      | some (ls, p3) =>
        match litTok ['='] s p3 with
        | some p4 =>
          match wordTok noncommaChar noncommaChar s p4 with
          | some (rs, p5) =>
            let p6 := match litTok [','] s p5 with
              | some q => q
              | none => p5
            some ({name := ⟨nm⟩, left_side := ⟨ls⟩, right_side := ⟨rs⟩}, p6)
          | none => none
        | none => none
      | none => none
    | none => none
  | none => none

/-- `commentRegion`: `Suppress(CaselessLiteral("--region")) + Optional(restOfLine)`;
the label token is the raw remainder of the line. -/
def commentRegionP (s : List Char) (pos : Nat) : Option (String × Nat) :=
  match caselessTok "--region".data s pos with
  | some p1 =>
    let (t, p2) := restOfLineTok s p1
    some (⟨t⟩, p2)
  | none => none

/-- `commentEndRegion`: `Suppress(CaselessLiteral("--endregion")) + Optional(restOfLine)`. -/
def commentEndRegionP (s : List Char) (pos : Nat) : Option Nat :=
  match caselessTok "--endregion".data s pos with
  | some p1 => some (restOfLineTok s p1).2
  | none => none

def manyAux {α : Type} (p : List Char → Nat → Option (α × Nat)) (s : List Char) :
    Nat → Nat → List α × Nat
  | 0, pos => ([], pos)
  | fuel + 1, pos =>
    match p s pos with
    | some (a, p2) =>
      let (rest, p3) := manyAux p s fuel p2
      (a :: rest, p3)
    | none => ([], pos)

/-- `OneOrMore`: at least one match, then as many as possible. -/
def oneOrMoreOf {α : Type} (p : List Char → Nat → Option (α × Nat))
    (s : List Char) (pos : Nat) : Option (List α × Nat) :=
  match p s pos with
  | some (a, p2) =>
    let (rest, p3) := manyAux p s (s.length + 1) p2
    some (a :: rest, p3)
  | none => none

/-- `region`: `Optional(commentRegion)("name") + OneOrMore(Group(equation)) +
Suppress(Optional(commentEndRegion))`. -/
def regionP (s : List Char) (pos : Nat) : Option (RawRegion × Nat) :=
  let (nm, p1) :=
    match commentRegionP s pos with
    | some (lbl, p) => (some lbl, p)
    | none => (none, pos)
  match oneOrMoreOf equationP s p1 with
  | some (eqs, p2) =>
    let p3 := match commentEndRegionP s p2 with
      | some p => p
      | none => p2
    some ({name := nm, equations := eqs}, p3)
  | none => none

/-- `block_addeq_begin`: `CaselessKeyword("ADDEQ") + Optional(TOP ^ BOTTOM) + ","`. -/
def blockBeginP (s : List Char) (pos : Nat) : Option Nat :=
  match keywordTok "ADDEQ".data s pos with
  | some p1 =>
    let p2 := match keywordTok "TOP".data s p1 with
      | some q => q
      | none =>
        match keywordTok "BOTTOM".data s p1 with
        | some q => q
        | none => p1
    litTok [','] s p2
  | none => none

/-- One `ADDEQ ... ;` block: begin marker, one or more regions, `;`. -/
def blockP (s : List Char) (pos : Nat) : Option (List RawRegion × Nat) :=
  match blockBeginP s pos with
  | some p1 =>
    match oneOrMoreOf regionP s p1 with
    | some (rs, p2) =>
      match litTok [';'] s p2 with
      | some p3 => some (rs, p3)
      | none => none
    | none => none
  | none => none

/-- `regions`: `OneOrMore(block)`, regions of all blocks in order. -/
def regionsP (s : List Char) (pos : Nat) : Option (List RawRegion × Nat) :=
  match oneOrMoreOf blockP s pos with
  | some (bs, p) => some (bs.flatten, p)
  | none => none

def skipToRegionsAux (s : List Char) : Nat → Nat → Option Nat
  | 0, _ => none
  | fuel + 1, pos =>
    if (regionsP s pos).isSome then some pos
    else if pos < s.length then skipToRegionsAux s fuel (pos + 1)
    else none

/-- `SkipTo(regions)`: the first position at or after `pos` where `regions`
matches. -/
def skipToRegions (s : List Char) (pos : Nat) : Option Nat :=
  skipToRegionsAux s (s.length + 1) pos

/-- One `SkipTo(regions).suppress() + regions` unit. -/
def regionsBlockP (s : List Char) (pos : Nat) : Option (List RawRegion × Nat) :=
  match skipToRegions s pos with
  | some p => regionsP s p
  | none => none

/-- `troll_BNF` applied to a whole input (`parseString`, `parseAll=False`):
`OneOrMore(SkipTo(regions).suppress() + regions)`.  `none` models the
`ParseException` of a failed parse. -/
def parseTroll (txt : String) : Option (List RawRegion) :=
  let s := txt.data
  match oneOrMoreOf regionsBlockP s 0 with
  | some (bs, _) => some bs.flatten
  | none => none

/-! ### Equation assembly (main, lines 339-343)

After parsing, `main` adds
`whole_equation = left_side.strip() + " = " + right_side.strip()`
to every equation dict; `left_side`/`right_side` themselves are left as
parsed. -/

/-- One parsed equation with `whole_equation` attached. -/
def assembleEq (e : RawEq) : Eqn :=
  { name := e.name
    left_side := e.left_side
    right_side := e.right_side
    whole_equation := ⟨pyStrip e.left_side.data ++ " = ".data ++ pyStrip e.right_side.data⟩
    «variables» := []
    appears_in := []
    legend := none }

/-- The whole-equation assembly loop of `main` over the parsed regions. -/
def assemblePhase (rs : List RawRegion) : List Region :=
  rs.map fun r => {name := r.name, equations := r.equations.map assembleEq}

/-! ### `makeinternallinks` (lines 87-144) -/

/-- First loop of `makeinternallinks`: rebuild each equation dict with
lower-cased `name`/`left_side`/`right_side`/`whole_equation` and fresh empty
`variables` and `appears_in` lists. -/
def lowerEqn (e : Eqn) : Eqn :=
  { name := pyLowerS e.name
    left_side := pyLowerS e.left_side
    right_side := pyLowerS e.right_side
    whole_equation := pyLowerS e.whole_equation
    «variables» := []
    appears_in := []
    legend := none }

def lowerPhase (rs : List Region) : List Region := rs.map (mapRegionEqs lowerEqn)

/-- The replacement `r'<a href="#\1">\1</a>'` (`\1` is the matched text). -/
def linkRepl (m : List Char) : List Char :=
  "<a href=\"#".data ++ m ++ "\">".data ++ m ++ "</a>".data

/-- The replacement `r'<a href="#\1" class="main_variable">\1</a>'`. -/
def selfRepl (m : List Char) : List Char :=
  "<a href=\"#".data ++ m ++ "\" class=\"main_variable\">".data ++ m ++ "</a>".data

/-- Body of `for name in names` for one equation: the forward-link branch
(`name in whole_equation and name != eq.name`, then `regex.search`: append to
`variables` and rewrite every `\b(name)\b` occurrence to an anchor). -/
def linkFwd (e : Eqn) (nm : String) : Eqn :=
  if containsSub nm.data e.whole_equation.data && nm != e.name then
    if bSearch nm.data e.whole_equation.data then
      { e with
        «variables» := e.variables ++ [nm]
        whole_equation := ⟨bSub nm.data linkRepl e.whole_equation.data⟩ }
    else e
  else e

/-- The self-link branch (`name == eq.name`): rewrite every `\b(name)\b`
occurrence to an anchor with the `main_variable` class marker. -/
def linkSelf (e : Eqn) (nm : String) : Eqn :=
  if nm = e.name then
    {e with whole_equation := ⟨bSub nm.data selfRepl e.whole_equation.data⟩}
  else e

/-- One iteration of the inner `for name in names` loop. -/
def linkStep (e : Eqn) (nm : String) : Eqn := linkSelf (linkFwd e nm) nm

/-- The whole `for name in names` loop for one equation. -/
def linkEq (names : List String) (e : Eqn) : Eqn := names.foldl linkStep e

def linkPhase (names : List String) (rs : List Region) : List Region :=
  rs.map (mapRegionEqs (linkEq names))

/-- Reverse-link loop body for one equation: append, in region-then-equation
order, the name of every other equation whose `variables` contains this
equation's name. -/
def reverseStep (all : List Eqn) (e : Eqn) : Eqn :=
  { e with
    appears_in := e.appears_in ++
      (all.filter fun g => decide (e.name ≠ g.name ∧ e.name ∈ g.variables)).map Eqn.name }

def reversePhase (rs : List Region) : List Region :=
  rs.map (mapRegionEqs (reverseStep (flatEqs rs)))

/-- `makeinternallinks`: lower-case pass (collecting the flattened name list),
forward-link pass, reverse-link pass. -/
def makeinternallinks (rs : List Region) : List Region :=
  let rs1 := lowerPhase rs
  let names := (flatEqs rs1).map Eqn.name
  reversePhase (linkPhase names rs1)

/-! ### `replaceparamsbyvalues` (lines 146-176)

The parameter table is modelled as the loaded dict's items: keys already
lower-cased, in key enumeration (first-insertion) order.  Values are
substituted as literal text; the source's `eval('r' + repr(value))` only
matters for values containing backslash escapes, which the claims do not
involve. -/

/-- One `for paramname in paramnames` iteration for one equation. -/
def replaceStep (e : Eqn) (kv : String × String) : Eqn :=
  if containsSub kv.1.data e.whole_equation.data then
    if bSearch kv.1.data e.whole_equation.data then
      {e with whole_equation := ⟨bSub kv.1.data (fun _ => kv.2.data) e.whole_equation.data⟩}
    else e
  else e

/-- `replaceparamsbyvalues` over the whole model. -/
def replaceparamsbyvalues (params : List (String × String)) (rs : List Region) :
    List Region :=
  rs.map (mapRegionEqs fun e => params.foldl replaceStep e)

/-! ### `insertlegends` (lines 178-220)

The legend table is modelled like the parameter table.  A matching key
assigns its value to the equation's `legend`, overwriting any previous
assignment; the match is `legendname in eq.name` plus
`re.search(r'\b(legendname)\b', eq.name)`. -/

/-- One legend-table iteration for one equation. -/
def legendStep (e : Eqn) (kv : String × String) : Eqn :=
  if containsSub kv.1.data e.name.data then
    if bSearch kv.1.data e.name.data then {e with legend := some kv.2} else e
  else e

/-- Combined legend-match condition of one iteration. -/
def legendMatch (k nm : String) : Bool :=
  containsSub k.data nm.data && bSearch k.data nm.data

/-- `insertlegends` over the whole model. -/
def insertlegends (legends : List (String × String)) (rs : List Region) :
    List Region :=
  rs.map (mapRegionEqs fun e => legends.foldl legendStep e)

/-! ### The run outcome of `main` (lines 296-363) -/

/-- Observable outcome of one run: whether parsing succeeded, the process
completion status, the failure diagnostic, and whether the html output was
written. -/
structure RunResult where
  parsedOk : Bool
  exitCode : Nat
  diagnostic : String
  wroteOutput : Bool
deriving DecidableEq, Repr

def strReplaceAux (pat repl : List Char) : Nat → List Char → List Char
  | 0, s => s
  | _ + 1, [] => []
  | fuel + 1, c :: cs =>
    if startsWithL pat (c :: cs) then
      repl ++ strReplaceAux pat repl fuel ((c :: cs).drop pat.length)
    else c :: strReplaceAux pat repl fuel cs

/-- `re.sub` with a literal (metacharacter-free) pattern: replace every
non-overlapping occurrence, left to right. -/
def strReplace (pat repl s : String) : String :=
  ⟨strReplaceAux pat.data repl.data s.data.length s.data⟩

/-- `main`'s parse stage: normalise `//region`/`//endregion` markers to
`--region`/`--endregion`, then parse.  On `ParseException` the source prints
`"No equation found in file: " + input` and calls `sys.exit()` *without an
argument*, which terminates the CPython process with completion status 0; the
html output is not written.  On success the pipeline runs to completion and
writes the output (status 0). -/
def runPipeline (inputName text : String) : RunResult :=
  let formatted := strReplace "//endregion" "--endregion"
    (strReplace "//region" "--region" text)
  match parseTroll formatted with
  | none =>
    { parsedOk := false
      exitCode := 0
      diagnostic := "No equation found in file: " ++ inputName
      wroteOutput := false }
  | some _ =>
    {parsedOk := true, exitCode := 0, diagnostic := "", wroteOutput := true}

/-! ### Structural lemmas about the linker -/

@[simp] theorem linkFwd_name (e : Eqn) (nm : String) : (linkFwd e nm).name = e.name := by
  unfold linkFwd
  split
  · split <;> rfl
  · rfl

@[simp] theorem linkFwd_appears (e : Eqn) (nm : String) :
    (linkFwd e nm).appears_in = e.appears_in := by
  unfold linkFwd
  split
  · split <;> rfl
  · rfl

theorem linkFwd_vars_mem {e : Eqn} {nm v : String} (h : v ∈ (linkFwd e nm).variables) :
    v ∈ e.variables ∨ (v = nm ∧ nm ≠ e.name) := by
  unfold linkFwd at h
  split at h
  · next hc =>
    split at h
    · simp only [List.mem_append, List.mem_singleton] at h
      rcases h with h | h
      · exact Or.inl h
      · refine Or.inr ⟨h, ?_⟩
        rw [Bool.and_eq_true] at hc
        exact bne_iff_ne.1 hc.2
    · exact Or.inl h
  · exact Or.inl h

@[simp] theorem linkSelf_name (e : Eqn) (nm : String) : (linkSelf e nm).name = e.name := by
  unfold linkSelf
  split <;> rfl

@[simp] theorem linkSelf_vars (e : Eqn) (nm : String) :
    (linkSelf e nm).variables = e.variables := by
  unfold linkSelf
  split <;> rfl

@[simp] theorem linkSelf_appears (e : Eqn) (nm : String) :
    (linkSelf e nm).appears_in = e.appears_in := by
  unfold linkSelf
  split <;> rfl

@[simp] theorem linkStep_name (e : Eqn) (nm : String) : (linkStep e nm).name = e.name := by
  unfold linkStep
  simp

@[simp] theorem linkStep_appears (e : Eqn) (nm : String) :
    (linkStep e nm).appears_in = e.appears_in := by
  unfold linkStep
  simp

theorem linkStep_vars_mem {e : Eqn} {nm v : String} (h : v ∈ (linkStep e nm).variables) :
    v ∈ e.variables ∨ (v = nm ∧ nm ≠ e.name) := by
  unfold linkStep at h
  rw [linkSelf_vars] at h
  exact linkFwd_vars_mem h

@[simp] theorem linkEq_name (names : List String) (e : Eqn) :
    (linkEq names e).name = e.name := by
  induction names generalizing e with
  | nil => rfl
  | cons n t ih =>
    show (linkEq t (linkStep e n)).name = e.name
    rw [ih, linkStep_name]

@[simp] theorem linkEq_appears (names : List String) (e : Eqn) :
    (linkEq names e).appears_in = e.appears_in := by
  induction names generalizing e with
  | nil => rfl
  | cons n t ih =>
    show (linkEq t (linkStep e n)).appears_in = e.appears_in
    rw [ih, linkStep_appears]

/-- The forward pass never records an equation's own name: every element of
`variables` differs from the equation's name. -/
theorem linkEq_no_self (names : List String) (e : Eqn)
    (h : ∀ v ∈ e.variables, v ≠ e.name) :
    ∀ v ∈ (linkEq names e).variables, v ≠ e.name := by
  induction names generalizing e with
  | nil => exact h
  | cons n t ih =>
    intro v hv
    have h' : ∀ w ∈ (linkStep e n).variables, w ≠ (linkStep e n).name := by
      rw [linkStep_name]
      intro w hw
      rcases linkStep_vars_mem hw with hw | ⟨rfl, hne⟩
      · exact h w hw
      · exact hne
    have := ih (linkStep e n) (by simpa [linkStep_name] using h') v hv
    rwa [linkStep_name] at this

@[simp] theorem reverseStep_name (A : List Eqn) (e : Eqn) :
    (reverseStep A e).name = e.name := rfl

@[simp] theorem reverseStep_vars (A : List Eqn) (e : Eqn) :
    (reverseStep A e).variables = e.variables := rfl

theorem flatEqs_map (f : Eqn → Eqn) (rs : List Region) :
    flatEqs (rs.map (mapRegionEqs f)) = (flatEqs rs).map f := by
  induction rs with
  | nil => rfl
  | cons r t ih => simp [flatEqs, mapRegionEqs, ih]

/-- The flattened name list the linker collects. -/
def linkNames (rs : List Region) : List String := (flatEqs (lowerPhase rs)).map Eqn.name

/-- The flattened model after the lower-case and forward-link passes (the
state the reverse-link pass reads). -/
def linkedEqs (rs : List Region) : List Eqn :=
  flatEqs (linkPhase (linkNames rs) (lowerPhase rs))

theorem flatEqs_makeinternallinks (rs : List Region) :
    flatEqs (makeinternallinks rs) = (linkedEqs rs).map (reverseStep (linkedEqs rs)) := by
  show flatEqs (reversePhase (linkPhase (linkNames rs) (lowerPhase rs))) = _
  unfold reversePhase
  rw [flatEqs_map]
  rfl

theorem linkedEqs_eq (rs : List Region) :
    linkedEqs rs = ((flatEqs rs).map lowerEqn).map (linkEq (linkNames rs)) := by
  unfold linkedEqs linkPhase lowerPhase
  rw [flatEqs_map, flatEqs_map]

theorem linkedEqs_appears (rs : List Region) : ∀ e ∈ linkedEqs rs, e.appears_in = [] := by
  intro e he
  rw [linkedEqs_eq] at he
  rcases List.mem_map.1 he with ⟨a, ha, rfl⟩
  rcases List.mem_map.1 ha with ⟨b, _, rfl⟩
  rw [linkEq_appears]
  rfl

theorem linkedEqs_no_self (rs : List Region) :
    ∀ e ∈ linkedEqs rs, ∀ v ∈ e.variables, v ≠ e.name := by
  intro e he
  rw [linkedEqs_eq] at he
  rcases List.mem_map.1 he with ⟨a, ha, rfl⟩
  rcases List.mem_map.1 ha with ⟨b, _, rfl⟩
  rw [linkEq_name]
  exact linkEq_no_self _ _ (by intro v hv; simp [lowerEqn] at hv)

/-- Membership in the `appears_in` list the reverse pass builds. -/
theorem mem_reverseStep_appears (A : List Eqn) (e : Eqn) (he : e.appears_in = [])
    (x : String) :
    x ∈ (reverseStep A e).appears_in ↔
      ∃ g ∈ A, e.name ≠ g.name ∧ e.name ∈ g.variables ∧ g.name = x := by
  unfold reverseStep
  simp only [he]
  simp [List.mem_filter, List.mem_map, and_assoc]

/-! ### Concrete models used by the claims -/

/-- Shorthand for a pre-linking equation record. -/
def mkEqn (n l r w : String) : Eqn :=
  { name := n, left_side := l, right_side := r, whole_equation := w,
    «variables» := [], appears_in := [], legend := none }

/-- Two-equation model (`x = y`, `y = 2`) exercising one forward/reverse link. -/
def modelXY : List Region :=
  [⟨none, [mkEqn "x" "x" "y" "x = y", mkEqn "y" "y" "2" "y = 2"]⟩]

/-! ### Claim C1 -/

/-- Claim C1: after `makeinternallinks` runs, for every ordered pair of
distinct equations `e = final[i]`, `f = final[j]` of the model (equation names
being unique, as the data model requires), `f.name ∈ e.variables` iff
`e.name ∈ f.appears_in`: the forward and reverse dependency indices are exact
transposes. -/
theorem C1_transpose_invariant (rs : List Region)
    (h : ((flatEqs (makeinternallinks rs)).map Eqn.name).Nodup)
    (i j : Nat) (hi : i < (flatEqs (makeinternallinks rs)).length)
    (hj : j < (flatEqs (makeinternallinks rs)).length) (hij : i ≠ j) :
    ((flatEqs (makeinternallinks rs))[j]).name ∈
        ((flatEqs (makeinternallinks rs))[i]).variables ↔
      ((flatEqs (makeinternallinks rs))[i]).name ∈
        ((flatEqs (makeinternallinks rs))[j]).appears_in := by
  have hM := flatEqs_makeinternallinks rs
  rw [hM] at h hi hj
  simp only [hM]
  have hi' : i < (linkedEqs rs).length := by simpa using hi
  have hj' : j < (linkedEqs rs).length := by simpa using hj
  have hnod : ((linkedEqs rs).map Eqn.name).Nodup := by
    have hcomp : (((linkedEqs rs).map (reverseStep (linkedEqs rs))).map Eqn.name) =
        (linkedEqs rs).map Eqn.name := by
      rw [List.map_map]
      simp [Function.comp]
    rwa [hcomp] at h
  have hmi : i < ((linkedEqs rs).map Eqn.name).length := by simpa using hi'
  have hmj : j < ((linkedEqs rs).map Eqn.name).length := by simpa using hj'
  have hne_names : ((linkedEqs rs)[i]).name ≠ ((linkedEqs rs)[j]).name := by
    intro hcontra
    apply hij
    refine (@List.Nodup.getElem_inj_iff _ _ hnod i hmi j hmj).1 ?_
    simp only [List.getElem_map]
    exact hcontra
  simp only [List.getElem_map]
  rw [mem_reverseStep_appears _ _ (linkedEqs_appears rs _ (List.getElem_mem hj')),
    reverseStep_name, reverseStep_vars]
  constructor
  · intro hv
    exact ⟨(linkedEqs rs)[i], List.getElem_mem hi', fun hc => hne_names hc.symm, hv, rfl⟩
  · rintro ⟨g, hg, hgne, hgmem, hgname⟩
    rcases List.mem_iff_getElem.1 hg with ⟨k, hk, rfl⟩
    have hmk : k < ((linkedEqs rs).map Eqn.name).length := by simpa using hk
    have hki : k = i := by
      refine (@List.Nodup.getElem_inj_iff _ _ hnod k hmk i hmi).1 ?_
      simp only [List.getElem_map]
      exact hgname
    subst hki
    exact hgmem

/-- Claim C1 witness: the transpose equivalence instantiated on the concrete
two-equation model `modelXY` at indices 0 and 1. -/
theorem C1_transpose_invariant_witness :
    ((flatEqs (makeinternallinks modelXY)).map Eqn.name).Nodup ∧ (0 : Nat) ≠ 1 ∧
      (((flatEqs (makeinternallinks modelXY)).get ⟨1, by decide⟩).name ∈
          ((flatEqs (makeinternallinks modelXY)).get ⟨0, by decide⟩).variables ↔
        ((flatEqs (makeinternallinks modelXY)).get ⟨0, by decide⟩).name ∈
          ((flatEqs (makeinternallinks modelXY)).get ⟨1, by decide⟩).appears_in) :=
  ⟨by decide, by decide,
    C1_transpose_invariant modelXY (by decide) 0 1 (by decide) (by decide) (by decide)⟩

/-! ### Claim C5 -/

/-- Model with a self-referencing equation: `x = x(-1) + b` (two boundary-bound
occurrences of its own name `x`), alongside equation `b`. -/
def modelSelf : List Region :=
  [⟨none, [mkEqn "x" "x" "x(-1) + b" "x = x(-1) + b", mkEqn "b" "b" "2" "b = 2"]⟩]

/-! ### Claim C10 -/

/-- Model in which equation `b` (scanned first, self-anchored) precedes
equation `a`; the text `b = 1` contains no boundary-bound `a`, but the
inserted anchor markup does (`<a ...>` and `</a>`). -/
def modelMarkup : List Region :=
  [⟨none, [mkEqn "b" "b" "1" "b = 1", mkEqn "a" "z" "2" "z = 2"]⟩]

/-- Claim C10: the linker scans the already-rewritten `whole_equation`, so
anchor markup inserted for an earlier name is visible to later name scans:
in `modelMarkup`, equation `b`'s `variables` ends up containing `a` although
its original text `b = 1` has no boundary-bound occurrence of `a` at all. -/
theorem C10_markup_rescan :
    (flatEqs (makeinternallinks modelMarkup)).map Eqn.variables = [["a"], []] ∧
      specOccurs wordChar "a".data "b = 1".data = false := by
  decide

/-! ### Claim C7 -/

/-- One-equation model `x = p` for the substitution pass. -/
def modelParam : List Region := [⟨none, [mkEqn "x" "x" "p" "x = p"]⟩]

/-- Claim C7: parameter substitution processes keys in table enumeration
order on the already-mutated text, so a value that reintroduces a later key's
token is substituted again: with table `p ↦ q2, q2 ↦ z` the equation `x = p`
ends as `x = z` (the substituted `q2` is re-substituted), while the reversed
enumeration order leaves `x = q2`. -/
theorem C7_substitution_order :
    (flatEqs (replaceparamsbyvalues [("p", "q2"), ("q2", "z")] modelParam)).map
        Eqn.whole_equation = ["x = z"] ∧
      (flatEqs (replaceparamsbyvalues [("q2", "z"), ("p", "q2")] modelParam)).map
        Eqn.whole_equation = ["x = q2"] := by
  decide

/-! ### Claim C4 -/

/-- Claim C4 (code bug evidence): on an input with no `ADDEQ ... ;` block the
run takes the `ParseException` branch: it prints the diagnostic naming the
input file and writes no output, but `sys.exit()` is called without an
argument, so the completion status is 0, not the non-zero signal the claim
requires. -/
theorem C4_parse_failure_exit :
    runPipeline "model.inp" "hello world" =
      { parsedOk := false, exitCode := 0,
        diagnostic := "No equation found in file: model.inp", wroteOutput := false } ∧
      parseTroll "hello world" = none := by
  decide

/-! ### Claim C3 -/

/-- Claim C3 counterexample: the claim's input, with the region marker and the
equations on a single line, does not parse at all (the `--region` label
capture takes the rest of the line, so no equation follows and the grammar
mismatches), so it cannot yield a region named `Foo`. -/
theorem C3_single_line_fails :
    parseTroll "ADDEQ TOP, --region Foo eq1: a = b, eq2: c = d; --endregion;" = none := by
  decide

/-- Claim C3 (amended): with the equations after the marker line, each
equation comma-terminated, and `--endregion` and `;` on their own lines, the
input yields exactly one region, whose captured label is the raw rest of the
marker line `" Foo"`, containing exactly the two equations `eq1` then `eq2`
in that order. -/
theorem C3_region_grouping :
    parseTroll "ADDEQ TOP, --region Foo\neq1: a = b, eq2: c = d,\n--endregion\n;" =
      some [⟨some " Foo", [⟨"eq1", "a ", "b"⟩, ⟨"eq2", "c ", "d"⟩]⟩] := by
  decide

/-! ### Claim C8 -/

/-- Claim C8 counterexample: `ADDEQ, --region X --endregion;` does not yield
an (empty) parse result at all: the single-line void region is not recognised
(the label capture swallows `--endregion`), the region then lacks its
mandatory equation, and the whole parse fails. -/
theorem C8_single_line_void_fails :
    parseTroll "ADDEQ, --region X --endregion;" = none := by
  decide

/-- Claim C8 (amended): a void region is discarded as a unit only when its two
markers sit on separate lines and the block still contains at least one
equation: the void region contributes zero regions and zero equations, and
the following equation is parsed into a single unnamed region. -/
theorem C8_void_region_discard :
    parseTroll "ADDEQ,\n--region X\n--endregion\neq1: a = b,\n;" =
      some [⟨none, [⟨"eq1", "a ", "b"⟩]⟩] := by
  decide

/-! ### Claim C9 -/

@[simp] theorem legendStep_name (e : Eqn) (kv : String × String) :
    (legendStep e kv).name = e.name := by
  unfold legendStep
  split
  · split <;> rfl
  · rfl

theorem legendStep_eq (e : Eqn) (kv : String × String) :
    legendStep e kv = if legendMatch kv.1 e.name then {e with legend := some kv.2} else e := by
  unfold legendStep legendMatch
  cases h1 : containsSub kv.1.data e.name.data <;>
    cases h2 : bSearch kv.1.data e.name.data <;> simp [h1, h2]

/-- The legend loop is last-write-wins: the final `legend` is the value of the
last matching key of the table, and the initial value if no key matches. -/
theorem foldl_legendStep_legend (l : List (String × String)) (e : Eqn) :
    (l.foldl legendStep e).legend =
      match (l.filter fun kv => legendMatch kv.1 e.name).getLast? with
      | some kv => some kv.2
      | none => e.legend := by
  induction l generalizing e with
  | nil => rfl
  | cons kv t ih =>
    show (t.foldl legendStep (legendStep e kv)).legend = _
    rw [ih, legendStep_name, List.filter_cons]
    cases hm : legendMatch kv.1 e.name with
    | false =>
      simp only [Bool.false_eq_true, if_false]
      have hleg : (legendStep e kv).legend = e.legend := by
        rw [legendStep_eq, hm]
        simp
      rw [hleg]
    | true =>
      simp only [if_true]
      have hleg : (legendStep e kv).legend = some kv.2 := by
        rw [legendStep_eq, hm]
        simp
      cases hf : t.filter fun p => legendMatch p.1 e.name with
      | nil => simp [hleg]
      | cons x xs =>
        rw [List.getLast?_cons_cons]
        have : ∃ y, (x :: xs).getLast? = some y :=
          ⟨(x :: xs).getLast (by simp), List.getLast?_eq_getLast _ (by simp)⟩
        rcases this with ⟨y, hy⟩
        rw [hy]

theorem flatEqs_insertlegends (legends : List (String × String)) (rs : List Region) :
    flatEqs (insertlegends legends rs) =
      (flatEqs rs).map fun e => legends.foldl legendStep e := by
  unfold insertlegends
  rw [flatEqs_map]

/-- Claim C9: in the legend annotator, whenever the legend table has matching
keys for an equation's name (boundary-bound, i.e. `legendMatch`), the
equation's final `legend` is the value of whichever matching key is last in
the table's enumeration order — each later match overwrites the previous
assignment. -/
theorem C9_legend_last_write_wins (legends : List (String × String))
    (rs : List Region) (i : Nat) (hi : i < (flatEqs rs).length)
    (hi' : i < (flatEqs (insertlegends legends rs)).length)
    (kv : String × String)
    (h : (legends.filter fun p => legendMatch p.1 ((flatEqs rs)[i]).name).getLast? =
      some kv) :
    ((flatEqs (insertlegends legends rs))[i]).legend = some kv.2 := by
  have hfl := flatEqs_insertlegends legends rs
  simp only [hfl, List.getElem_map]
  rw [foldl_legendStep_legend, h]

/-- One-equation model whose dotted name `x.y` has two boundary-bound legend
keys inside it (`x` and `y`: the dot is a word boundary). -/
def modelLegend : List Region := [⟨none, [mkEqn "x.y" "x.y" "1" "x.y = 1"]⟩]

/-- Claim C9 witness: with table `x ↦ "ex", y ↦ "why"` both keys match the
name `x.y`; the resulting legend is the later table entry's value `"why"`. -/
theorem C9_legend_last_write_wins_witness :
    (([("x", "ex"), ("y", "why")].filter fun p =>
        legendMatch p.1 ((flatEqs modelLegend).get ⟨0, by decide⟩).name).getLast? =
      some ("y", "why")) ∧
    ((flatEqs (insertlegends [("x", "ex"), ("y", "why")] modelLegend)).get
        ⟨0, by decide⟩).legend = some "why" :=
  ⟨by decide,
    C9_legend_last_write_wins [("x", "ex"), ("y", "why")] modelLegend 0 (by decide)
      (by decide) ("y", "why") (by decide)⟩

/-! ### Claim C6 -/

theorem pySpace_ofNat_lower (m : Nat) (h1 : 97 ≤ m) (h2 : m ≤ 122) :
    pySpace (Char.ofNat m) = false := by
  interval_cases m <;> decide

theorem lowerChar_ofNat_fixed (m : Nat) (h1 : 97 ≤ m) (h2 : m ≤ 122) :
    lowerChar (Char.ofNat m) = Char.ofNat m := by
  interval_cases m <;> decide

/-- Lower-casing never changes whether a character is whitespace. -/
theorem pySpace_lowerChar (c : Char) : pySpace (lowerChar c) = pySpace c := by
  cases hsp : pySpace c with
  | false =>
    unfold lowerChar
    split
    · next h => exact pySpace_ofNat_lower _ (by omega) (by omega)
    · exact hsp
  | true =>
    have hc : c = ' ' ∨ c = '\t' ∨ c = '\n' ∨ c = '\r' ∨ c = '\x0b' ∨ c = '\x0c' := by
      unfold pySpace at hsp
      simpa [or_assoc] using hsp
    rcases hc with rfl | rfl | rfl | rfl | rfl | rfl <;> rfl

theorem lowerChar_idem (c : Char) : lowerChar (lowerChar c) = lowerChar c := by
  unfold lowerChar
  split
  · next h => exact lowerChar_ofNat_fixed _ (by omega) (by omega)
  · rfl

theorem pyLower_append (a b : List Char) : pyLower (a ++ b) = pyLower a ++ pyLower b :=
  List.map_append lowerChar a b

theorem pyLower_idem (s : List Char) : pyLower (pyLower s) = pyLower s := by
  unfold pyLower
  rw [List.map_map]
  simp [Function.comp, lowerChar_idem]

/-- Stripping commutes with lower-casing. -/
theorem pyStrip_pyLower (s : List Char) : pyStrip (pyLower s) = pyLower (pyStrip s) := by
  have hcomp : (pySpace ∘ lowerChar) = pySpace := by
    funext c
    exact pySpace_lowerChar c
  unfold pyStrip pyLower
  rw [List.dropWhile_map, hcomp, ← List.map_reverse, List.dropWhile_map, hcomp,
    ← List.map_reverse]

/-- The normalized form of one parsed equation: `main`'s whole-equation
assembly followed by the lower-casing pass at the top of
`makeinternallinks` — the state every later stage scans. -/
def normalizeEq (e : RawEq) : Eqn := lowerEqn (assembleEq e)

/-- Claim C6 (amended): after normalization and before any linking or
substitution, `whole_equation = trim(left_side) + " = " + trim(right_side)`
and `name`, `left_side`, `right_side`, `whole_equation` are all lower-cased
(fixed points of lower-casing); `left_side`/`right_side` themselves keep
their raw, untrimmed whitespace. -/
theorem C6_normalization (e : RawEq) :
    (normalizeEq e).whole_equation =
      ⟨pyStrip (normalizeEq e).left_side.data ++ " = ".data ++
        pyStrip (normalizeEq e).right_side.data⟩ ∧
    pyLowerS (normalizeEq e).name = (normalizeEq e).name ∧
    pyLowerS (normalizeEq e).left_side = (normalizeEq e).left_side ∧
    pyLowerS (normalizeEq e).right_side = (normalizeEq e).right_side ∧
    pyLowerS (normalizeEq e).whole_equation = (normalizeEq e).whole_equation := by
  unfold normalizeEq lowerEqn assembleEq pyLowerS
  simp only
  refine ⟨?_, ?_, ?_, ?_, ?_⟩
  · show (⟨pyLower (pyStrip e.left_side.data ++ " = ".data ++ pyStrip e.right_side.data)⟩ :
        String) = _
    congr 1
    rw [pyLower_append, pyLower_append, ← pyStrip_pyLower, ← pyStrip_pyLower]
    congr 2
  · congr 1
    exact pyLower_idem _
  · congr 1
    exact pyLower_idem _
  · congr 1
    exact pyLower_idem _
  · congr 1
    exact pyLower_idem _

/-- Claim C6 counterexample: parsing `ADDEQ, e: A = b,` + `;` and normalizing
leaves `left_side = "a "` — lower-cased but still carrying the whitespace the
parser captured, so `left_side` is *not* trimmed (while `whole_equation` is
built from the trimmed copies). -/
theorem C6_untrimmed_left_side :
    (parseTroll "ADDEQ, e: A = b,\n;").map
        (fun rs => flatEqs (lowerPhase (assemblePhase rs))) =
      some [{ name := "e", left_side := "a ", right_side := "b",
              whole_equation := "a = b", «variables» := [], appears_in := [],
              legend := none }] ∧
    pyStripS "a " ≠ "a " := by
  decide

/-! ### Claim C2: relating the regex machinery to the declarative
boundary-occurrence predicate (for dot-free patterns) -/

theorem patCharM_of_ne {p : Char} (hp : p ≠ '.') (c : Char) :
    patCharM p c = decide (p = c) := by
  unfold patCharM
  rw [if_neg hp]

/-- For a wildcard-free pattern, a successful match returns the pattern
itself and the subject is the pattern followed by the rest. -/
theorem patMatch_sound (pat : List Char) :
    ∀ s m r, '.' ∉ pat → patMatch pat s = some (m, r) → m = pat ∧ s = pat ++ r := by
  induction pat with
  | nil =>
    intro s m r _ h
    simp only [patMatch, Option.some.injEq, Prod.mk.injEq] at h
    obtain ⟨h1, h2⟩ := h
    subst h1
    subst h2
    exact ⟨rfl, by simp⟩
  | cons p ps ih =>
    intro s m r hdot h
    have hp : p ≠ '.' := fun he => hdot (by rw [← he]; exact List.mem_cons_self p ps)
    have hps : '.' ∉ ps := fun he => hdot (List.mem_cons_of_mem _ he)
    cases s with
    | nil => simp [patMatch] at h
    | cons c cs =>
      simp only [patMatch, patCharM_of_ne hp] at h
      by_cases hpc : p = c
      · subst hpc
        rw [if_pos (by simp)] at h
        cases hm : patMatch ps cs with
        | none =>
          rw [hm] at h
          cases h
        | some pr =>
          obtain ⟨m', r'⟩ := pr
          rw [hm] at h
          simp only [Option.some.injEq, Prod.mk.injEq] at h
          obtain ⟨h1, h2⟩ := h
          obtain ⟨hm2, hs2⟩ := ih cs m' r' hps hm
          subst h1
          subst h2
          subst hm2
          exact ⟨rfl, by rw [List.cons_append, ← hs2]⟩
      · rw [if_neg (by simpa using hpc)] at h
        cases h

/-- For a wildcard-free pattern, matching at an actual occurrence succeeds. -/
theorem patMatch_complete (pat : List Char) :
    ∀ r, '.' ∉ pat → patMatch pat (pat ++ r) = some (pat, r) := by
  induction pat with
  | nil => intro r _; rfl
  | cons p ps ih =>
    intro r hdot
    have hp : p ≠ '.' := fun he => hdot (by rw [← he]; exact List.mem_cons_self p ps)
    have hps : '.' ∉ ps := fun he => hdot (List.mem_cons_of_mem _ he)
    show patMatch (p :: ps) (p :: (ps ++ r)) = _
    simp only [patMatch, patCharM_of_ne hp]
    rw [if_pos (by simp), ih r hps]

/-- The character governing the left `\b` test at the current position when
`pre` has already been scanned and `prev` preceded it. -/
def lastCtx (prev : Option Char) (pre : List Char) : Option Char :=
  match pre.getLast? with
  | some c => some c
  | none => prev

theorem lastCtx_nil (prev : Option Char) : lastCtx prev [] = prev := rfl

theorem lastCtx_cons (prev : Option Char) (c : Char) (l : List Char) :
    lastCtx prev (c :: l) = lastCtx (some c) l := by
  cases l with
  | nil => rfl
  | cons d ds =>
    obtain ⟨y, hy⟩ : ∃ y, (d :: ds).getLast? = some y :=
      ⟨(d :: ds).getLast (by simp), List.getLast?_eq_getLast _ (by simp)⟩
    simp [lastCtx, List.getLast?_cons_cons, hy]

theorem lastCtx_none (pre : List Char) : lastCtx none pre = pre.getLast? := by
  unfold lastCtx
  cases pre.getLast? <;> rfl

theorem bMatchAt_isSome_iff (pat : List Char) (hne : pat ≠ []) (hdot : '.' ∉ pat)
    (prev : Option Char) (s : List Char) :
    (bMatchAt pat prev s).isSome = true ↔
      ∃ r, s = pat ++ r ∧
        (wordOpt wordChar prev != wordOpt wordChar pat.head?) = true ∧
        (wordOpt wordChar pat.getLast? != wordOpt wordChar r.head?) = true := by
  unfold bMatchAt
  cases hm : patMatch pat s with
  | none =>
    simp only [Option.isSome_none, Bool.false_eq_true, false_iff]
    rintro ⟨r, hs, _, _⟩
    rw [hs, patMatch_complete pat r hdot] at hm
    cases hm
  | some pr =>
    obtain ⟨m, r0⟩ := pr
    obtain ⟨hmp, hsp⟩ := patMatch_sound pat s m r0 hdot hm
    subst hmp
    dsimp only
    split
    · next hcond =>
      simp only [Option.isSome_some, true_iff]
      rw [Bool.and_eq_true] at hcond
      exact ⟨r0, hsp, hcond.1, hcond.2⟩
    · next hcond =>
      simp only [Option.isSome_none, Bool.false_eq_true, false_iff]
      rintro ⟨r, hs, h1, h2⟩
      have hr : r = r0 := List.append_cancel_left (hs ▸ hsp)
      subst hr
      exact hcond (by rw [Bool.and_eq_true]; exact ⟨h1, h2⟩)

theorem bSearchAux_iff (pat : List Char) (hne : pat ≠ []) (hdot : '.' ∉ pat) :
    ∀ (s : List Char) (prev : Option Char),
      bSearchAux pat prev s = true ↔
        ∃ pre post, s = pre ++ pat ++ post ∧
          (wordOpt wordChar (lastCtx prev pre) != wordOpt wordChar pat.head?) = true ∧
          (wordOpt wordChar pat.getLast? != wordOpt wordChar post.head?) = true := by
  intro s
  induction s with
  | nil =>
    intro prev
    show (bMatchAt pat prev []).isSome = true ↔ _
    rw [bMatchAt_isSome_iff pat hne hdot]
    constructor
    · rintro ⟨r, hs, h1, h2⟩
      exact (hne (List.append_eq_nil.mp hs.symm).1).elim
    · rintro ⟨pre, post, hs, h1, h2⟩
      have h0 := List.append_eq_nil.mp hs.symm
      exact (hne (List.append_eq_nil.mp h0.1).2).elim
  | cons c cs ih =>
    intro prev
    show ((bMatchAt pat prev (c :: cs)).isSome || bSearchAux pat (some c) cs) = true ↔ _
    rw [Bool.or_eq_true, bMatchAt_isSome_iff pat hne hdot, ih (some c)]
    constructor
    · rintro (⟨r, hs, h1, h2⟩ | ⟨pre, post, hs, h1, h2⟩)
      · exact ⟨[], r, by simpa using hs, by simpa [lastCtx_nil] using h1, h2⟩
      · exact ⟨c :: pre, post, by simp [hs], by rwa [lastCtx_cons], h2⟩
    · rintro ⟨pre, post, hs, h1, h2⟩
      cases pre with
      | nil =>
        exact Or.inl ⟨post, by simpa using hs, by simpa [lastCtx_nil] using h1, h2⟩
      | cons d pre' =>
        have hcd : c = d ∧ cs = pre' ++ pat ++ post := by
          simpa using hs
        obtain ⟨rfl, hcs⟩ := hcd
        exact Or.inr ⟨pre', post, hcs, by rwa [lastCtx_cons] at h1, h2⟩

theorem specOccurs_iff (wc : Char → Bool) (pat s : List Char) :
    specOccurs wc pat s = true ↔
      ∃ pre post, s = pre ++ pat ++ post ∧
        (wordOpt wc pre.getLast? != wordOpt wc pat.head?) = true ∧
        (wordOpt wc pat.getLast? != wordOpt wc post.head?) = true := by
  unfold specOccurs
  rw [List.any_eq_true]
  constructor
  · rintro ⟨i, hi, hocc⟩
    rw [List.mem_range] at hi
    unfold occursAt at hocc
    rw [Bool.and_eq_true, Bool.and_eq_true] at hocc
    obtain ⟨⟨htake, h1⟩, h2⟩ := hocc
    have htake' : (s.drop i).take pat.length = pat := eq_of_beq htake
    have hmin := congrArg List.length htake'
    rw [List.length_take, List.length_drop] at hmin
    have hlen : i + pat.length ≤ s.length := by omega
    refine ⟨s.take i, s.drop (i + pat.length), ?_, ?_, ?_⟩
    · have hmid : s.drop i = pat ++ s.drop (i + pat.length) := by
        conv_lhs => rw [← List.take_append_drop pat.length (s.drop i)]
        rw [htake', List.drop_drop]
      conv_lhs => rw [← List.take_append_drop i s, hmid]
      rw [List.append_assoc]
    · cases i with
      | zero => simpa using h1
      | succ k =>
        have hk : (s.take (k + 1)).getLast? = s[k]? := by
          rw [List.getLast?_eq_getElem?, List.length_take]
          have hles : k + 1 ≤ s.length := by omega
          rw [Nat.min_eq_left hles]
          simp only [Nat.add_sub_cancel]
          exact List.getElem?_take_of_lt (by omega)
        rw [hk]
        simpa using h1
    · have hh : (s.drop (i + pat.length)).head? = s[i + pat.length]? := by
        rw [List.head?_eq_getElem?, List.getElem?_drop]
        simp
      rw [hh]
      exact h2
  · rintro ⟨pre, post, rfl, h1, h2⟩
    refine ⟨pre.length, ?_, ?_⟩
    · rw [List.mem_range]
      simp [List.length_append]
      omega
    · unfold occursAt
      rw [Bool.and_eq_true, Bool.and_eq_true]
      refine ⟨⟨?_, ?_⟩, ?_⟩
      · have hd : (pre ++ pat ++ post).drop pre.length = pat ++ post := by
          rw [List.append_assoc, List.drop_left]
        rw [hd, List.take_left]
        exact beq_self_eq_true pat
      · cases pre with
        | nil => simpa using h1
        | cons d pre' =>
          have hne0 : (d :: pre').length ≠ 0 := by simp
          rw [if_neg hne0]
          have hidx : ((d :: pre') ++ pat ++ post)[(d :: pre').length - 1]? =
              (d :: pre').getLast? := by
            rw [List.append_assoc, List.getElem?_append_left (by simp), List.getLast?_eq_getElem?]
          rw [hidx]
          exact h1
      · have hidx : (pre ++ pat ++ post)[pre.length + pat.length]? = post.head? := by
          rw [List.getElem?_append_right (by simp), List.head?_eq_getElem?]
          congr 1
          simp
        rw [hidx]
        exact h2

/-- For dot-free nonempty patterns, the regex `\b`-search agrees with the
declarative boundary-occurrence test over word characters. -/
theorem bSearch_eq_specOccurs (pat s : List Char) (hne : pat ≠ []) (hdot : '.' ∉ pat) :
    bSearch pat s = specOccurs wordChar pat s := by
  have h1 := bSearchAux_iff pat hne hdot s none
  have h2 := specOccurs_iff wordChar pat s
  show bSearchAux pat none s = specOccurs wordChar pat s
  cases hb : bSearchAux pat none s <;> cases ho : specOccurs wordChar pat s <;> try rfl
  · exfalso
    obtain ⟨pre, post, hs, hl, hr⟩ := h2.mp ho
    have hT : bSearchAux pat none s = true :=
      h1.mpr ⟨pre, post, hs, by rwa [lastCtx_none], hr⟩
    rw [hb] at hT
    cases hT
  · exfalso
    obtain ⟨pre, post, hs, hl, hr⟩ := h1.mp hb
    have hT : specOccurs wordChar pat s = true :=
      h2.mpr ⟨pre, post, hs, by rwa [lastCtx_none] at hl, hr⟩
    rw [ho] at hT
    cases hT

theorem startsWithL_iff (pat : List Char) :
    ∀ s, startsWithL pat s = true ↔ ∃ r, s = pat ++ r := by
  induction pat with
  | nil =>
    intro s
    constructor
    · intro _
      exact ⟨s, rfl⟩
    · intro _
      rfl
  | cons p ps ih =>
    intro s
    cases s with
    | nil =>
      constructor
      · intro h
        cases h
      · rintro ⟨r, hr⟩
        cases hr
    | cons c cs =>
      simp only [startsWithL, Bool.and_eq_true, decide_eq_true_eq]
      rw [ih cs]
      constructor
      · rintro ⟨rfl, r, rfl⟩
        exact ⟨r, rfl⟩
      · rintro ⟨r, hr⟩
        obtain ⟨h1, h2⟩ : c = p ∧ cs = ps ++ r := by simpa using hr
        exact ⟨h1.symm, r, h2⟩

theorem containsSub_iff (pat : List Char) :
    ∀ s, containsSub pat s = true ↔ ∃ pre post, s = pre ++ pat ++ post := by
  intro s
  induction s with
  | nil =>
    show startsWithL pat [] = true ↔ _
    rw [startsWithL_iff]
    constructor
    · rintro ⟨r, hr⟩
      obtain ⟨hp, hr'⟩ := List.append_eq_nil.mp hr.symm
      exact ⟨[], [], by simp [hp, hr']⟩
    · rintro ⟨pre, post, hs⟩
      obtain ⟨hpp, hpost⟩ := List.append_eq_nil.mp hs.symm
      obtain ⟨hpre, hpat⟩ := List.append_eq_nil.mp hpp
      exact ⟨[], by simp [hpat]⟩
  | cons c cs ih =>
    show (startsWithL pat (c :: cs) || containsSub pat cs) = true ↔ _
    rw [Bool.or_eq_true, startsWithL_iff, ih]
    constructor
    · rintro (⟨r, hr⟩ | ⟨pre, post, hs⟩)
      · exact ⟨[], r, by simpa using hr⟩
      · exact ⟨c :: pre, post, by simp [hs]⟩
    · rintro ⟨pre, post, hs⟩
      cases pre with
      | nil => exact Or.inl ⟨post, by simpa using hs⟩
      | cons d pre' =>
        obtain ⟨rfl, hcs⟩ : c = d ∧ cs = pre' ++ pat ++ post := by simpa using hs
        exact Or.inr ⟨pre', post, hcs⟩

theorem containsSub_of_specOccurs (wc : Char → Bool) (pat s : List Char)
    (h : specOccurs wc pat s = true) : containsSub pat s = true := by
  obtain ⟨pre, post, hs, _, _⟩ := (specOccurs_iff wc pat s).mp h
  exact (containsSub_iff pat s).mpr ⟨pre, post, hs⟩

/-- Three coexisting equations `w`, `cd_ef`, `ab_cd_ef`, where `w` textually
references `ab_cd_ef`. -/
def modelUnderscore : List Region :=
  [⟨none, [mkEqn "w" "w" "ab_cd_ef + 1" "w = ab_cd_ef + 1",
           mkEqn "cd_ef" "cd_ef" "2" "cd_ef = 2",
           mkEqn "ab_cd_ef" "ab_cd_ef" "3" "ab_cd_ef = 3"]⟩]

/-- Model in which equation `q1`'s text contains the dotted known name `a.b`
only as a non-boundary-bound fragment of `qa.bq`, plus the wildcard-matching
token `axb`. -/
def modelWildcard : List Region :=
  [⟨none, [mkEqn "q1" "z" "qa.bq and axb" "z = qa.bq and axb",
           mkEqn "a.b" "a.b" "2" "a.b = 2"]⟩]

/-- Claim C2 (amended): in a linking step for a nonempty *dot-free* known
name, the name is registered in the equation's `variables` exactly when it
occurs in the scanned text surrounded by non-word characters or string
start/end, where the word characters are letters, digits and underscore —
a dot in the text is a boundary character.  In particular (second conjunct),
a text occurrence of `ab_cd_ef` never registers `cd_ef` as a dependency.
For a known name *containing* a dot the guarantee fails altogether (third
conjunct): the dot is compiled into the regex as a wildcard, so `a.b` is
registered from `z = qa.bq and axb` (the wildcard match `axb`) although the
text has no boundary-bound occurrence of `a.b` at all. -/
theorem C2_boundary_correctness :
    (∀ (e : Eqn) (nm : String), nm.data ≠ [] → '.' ∉ nm.data → nm ∉ e.variables →
      (nm ∈ (linkStep e nm).variables ↔
        nm ≠ e.name ∧ specOccurs wordChar nm.data e.whole_equation.data = true)) ∧
    (flatEqs (makeinternallinks modelUnderscore)).map Eqn.variables =
      [["ab_cd_ef"], [], []] ∧
    ((flatEqs (makeinternallinks modelWildcard)).map Eqn.variables = [["a.b"], []] ∧
      specOccurs wordChar "a.b".data "z = qa.bq and axb".data = false) := by
  refine ⟨?_, ?_, ?_⟩
  · intro e nm hne hdot hnot
    show nm ∈ (linkSelf (linkFwd e nm) nm).variables ↔ _
    rw [linkSelf_vars]
    unfold linkFwd
    split
    · next hA =>
      rw [Bool.and_eq_true] at hA
      split
      · next hB =>
        apply iff_of_true
        · show nm ∈ e.variables ++ [nm]
          simp
        · refine ⟨bne_iff_ne.mp hA.2, ?_⟩
          rw [← bSearch_eq_specOccurs _ _ hne hdot]
          exact hB
      · next hB =>
        apply iff_of_false
        · exact hnot
        · rintro ⟨hnm, hso⟩
          rw [← bSearch_eq_specOccurs _ _ hne hdot] at hso
          exact hB hso
    · next hA =>
      apply iff_of_false
      · exact hnot
      · rintro ⟨hnm, hso⟩
        apply hA
        rw [Bool.and_eq_true]
        exact ⟨containsSub_of_specOccurs _ _ _ hso, bne_iff_ne.mpr hnm⟩
  · decide
  · decide

/-- Claim C2 witness: the registration equivalence instantiated on the
equation `w = a + 1` and the name `a` (which does occur boundary-bound). -/
theorem C2_boundary_correctness_witness :
    ("a" : String).data ≠ [] ∧ '.' ∉ ("a" : String).data ∧
      ("a" : String) ∉ (mkEqn "w" "w" "a + 1" "w = a + 1").variables ∧
      (("a" : String) ∈ (linkStep (mkEqn "w" "w" "a + 1" "w = a + 1") "a").variables ↔
        ("a" : String) ≠ (mkEqn "w" "w" "a + 1" "w = a + 1").name ∧
          specOccurs wordChar ("a" : String).data
            (mkEqn "w" "w" "a + 1" "w = a + 1").whole_equation.data = true) :=
  ⟨by decide, by decide, by decide,
    C2_boundary_correctness.1 (mkEqn "w" "w" "a + 1" "w = a + 1") "a"
      (by decide) (by decide) (by decide)⟩

/-- Model in which equation `q`'s text contains `b` only as the dot-separated
tail of the longer identifier `a.b`. -/
def modelDotTail : List Region :=
  [⟨none, [mkEqn "q" "z" "a.b" "z = a.b", mkEqn "b" "b" "2" "b = 2"]⟩]

/-- Claim C2 counterexample: with identifier characters taken to include the
dot (as the claim states), `b` has no boundary-bound occurrence in
`z = a.b` — yet the linker registers `b` as a dependency of `q`, because the
regex treats the dot as a boundary.  So a name can match a fragment of a
longer dot-containing identifier, contrary to the claim. -/
theorem C2_dot_boundary_refuted :
    (flatEqs (makeinternallinks modelDotTail)).map Eqn.variables = [["b"], []] ∧
      specOccurs specIdentCharDot "b".data "z = a.b".data = false := by
  decide

/-! ### Claim C5: the self-reference rewrite

`specSelfRewrite` follows the claim's words: rewrite every boundary-bound
*literal* occurrence of the equation's name into the `main_variable` anchor,
left to right, non-overlapping.  For dot-free names the code's regex
substitution coincides with it; for dotted names it does not (the dot in the
compiled pattern is a wildcard). -/

/-- Literal boundary-bound occurrence of `nm` at the head of `s` (`prev` is
the character before the position); returns the rest after the occurrence. -/
def specSelfMatchAt (nm : List Char) (prev : Option Char) (s : List Char) :
    Option (List Char) :=
  if startsWithL nm s then
    if (wordOpt wordChar prev != wordOpt wordChar nm.head?) &&
       (wordOpt wordChar nm.getLast? != wordOpt wordChar (s.drop nm.length).head?) then
      some (s.drop nm.length)
    else none
  else none

def specSelfRewriteAux (nm : List Char) : Nat → Option Char → List Char → List Char
  | 0, _, s => s
  | _ + 1, _, [] => []
  | fuel + 1, prev, c :: cs =>
    match specSelfMatchAt nm prev (c :: cs) with
    | some r => selfRepl nm ++ specSelfRewriteAux nm fuel nm.getLast? r
    | none => c :: specSelfRewriteAux nm fuel (some c) cs

/-- The claim's self-rewrite: every boundary-bound literal occurrence of the
name becomes the `class="main_variable"` anchor for the name. -/
def specSelfRewrite (nm s : List Char) : List Char := specSelfRewriteAux nm s.length none s

/-- For dot-free nonempty names, a regex `\b`-match is exactly a literal
boundary-bound occurrence. -/
theorem bMatchAt_eq_specSelfMatchAt (nm : List Char) (hne : nm ≠ []) (hdot : '.' ∉ nm)
    (prev : Option Char) (s : List Char) :
    bMatchAt nm prev s = (specSelfMatchAt nm prev s).map fun r => (nm, r) := by
  unfold bMatchAt specSelfMatchAt
  cases hm : patMatch nm s with
  | none =>
    cases hsw : startsWithL nm s with
    | false => simp [hsw]
    | true =>
      obtain ⟨r, rfl⟩ := (startsWithL_iff nm s).mp hsw
      rw [patMatch_complete nm r hdot] at hm
      cases hm
  | some pr =>
    obtain ⟨m, r⟩ := pr
    obtain ⟨rfl, hs⟩ := patMatch_sound nm s m r hdot hm
    subst hs
    have hsw : startsWithL m (m ++ r) = true := (startsWithL_iff m _).mpr ⟨r, rfl⟩
    rw [hsw, List.drop_left]
    cases hc : ((wordOpt wordChar prev != wordOpt wordChar m.head?) &&
        (wordOpt wordChar m.getLast? != wordOpt wordChar r.head?)) <;>
      simp [hc]

theorem bSubAux_eq_specSelfRewriteAux (nm : List Char) (hne : nm ≠ []) (hdot : '.' ∉ nm) :
    ∀ (fuel : Nat) (prev : Option Char) (s : List Char),
      bSubAux nm selfRepl fuel prev s = specSelfRewriteAux nm fuel prev s := by
  intro fuel
  induction fuel with
  | zero => intro prev s; rfl
  | succ f ih =>
    intro prev s
    cases s with
    | nil => rfl
    | cons c cs =>
      simp only [bSubAux, specSelfRewriteAux, bMatchAt_eq_specSelfMatchAt nm hne hdot]
      cases hl : specSelfMatchAt nm prev (c :: cs) with
      | none =>
        simp only [Option.map_none']
        rw [ih]
      | some r =>
        simp only [Option.map_some']
        rw [ih]

/-- For dot-free nonempty names the code's self-substitution is exactly the
claim's "rewrite every boundary-bound occurrence into the marked anchor". -/
theorem bSub_self_eq_specSelfRewrite (nm s : List Char) (hne : nm ≠ []) (hdot : '.' ∉ nm) :
    bSub nm selfRepl s = specSelfRewrite nm s := by
  unfold bSub specSelfRewrite
  cases nm with
  | nil => exact absurd rfl hne
  | cons p ps => exact bSubAux_eq_specSelfRewriteAux (p :: ps) hne hdot s.length none s

/-- Claim C5 (amended): the linker never records an equation's own name in
its `variables` list (first conjunct, every model); when the linker reaches
an equation's own *dot-free* name, it rewrites every boundary-bound literal
occurrence of that name in the current text into the anchor carrying the
distinct `class="main_variable"` self-reference marker — exactly the
spec-modelled `specSelfRewrite` (second conjunct, every equation and name);
on `modelSelf` both boundary-bound self occurrences are so rewritten (third
conjunct). -/
theorem C5_self_reference :
    (∀ (rs : List Region), ∀ e ∈ flatEqs (makeinternallinks rs),
        e.name ∉ e.variables) ∧
    (∀ (e : Eqn) (nm : String), nm.data ≠ [] → '.' ∉ nm.data → nm = e.name →
      (linkStep e nm).whole_equation =
        ⟨specSelfRewrite nm.data e.whole_equation.data⟩) ∧
    makeinternallinks modelSelf =
      [⟨none,
        [{ name := "x", left_side := "x", right_side := "x(-1) + b",
           whole_equation := "<a href=\"#x\" class=\"main_variable\">x</a> = <a href=\"#x\" class=\"main_variable\">x</a>(-1) + <a href=\"#b\">b</a>",
           «variables» := ["b"], appears_in := [], legend := none },
         { name := "b", left_side := "b", right_side := "2",
           whole_equation := "<a href=\"#b\" class=\"main_variable\">b</a> = 2",
           «variables» := [], appears_in := ["x"], legend := none }]⟩] := by
  refine ⟨?_, ?_, ?_⟩
  · intro rs e he hmem
    rw [flatEqs_makeinternallinks] at he
    rcases List.mem_map.1 he with ⟨a, ha, rfl⟩
    rw [reverseStep_name, reverseStep_vars] at hmem
    exact linkedEqs_no_self rs a ha _ hmem rfl
  · intro e nm hne hdot heq
    have hfwd : linkFwd e nm = e := by
      unfold linkFwd
      rw [heq]
      simp
    show (linkSelf (linkFwd e nm) nm).whole_equation = _
    rw [hfwd]
    unfold linkSelf
    rw [if_pos heq]
    show (⟨bSub nm.data selfRepl e.whole_equation.data⟩ : String) = _
    congr 1
    exact bSub_self_eq_specSelfRewrite nm.data e.whole_equation.data hne hdot
  · decide

/-- One-equation model whose dotted name `a.a` occurs boundary-bound at the
end of its own text. -/
def modelDotSelf : List Region := [⟨none, [mkEqn "a.a" "z" "a a.a" "z = a a.a"]⟩]

/-- Claim C5 counterexample: equation `a.a` has a boundary-bound occurrence
of its own name in its text `z = a a.a` (first conjunct), yet the linker
leaves it unrewritten: the dot in the compiled pattern is a regex wildcard,
the earlier wildcard match `a a` swallows the occurrence's first character
(second conjunct: the anchor wraps `a a` and a bare `.a` remains), and no
occurrence at all is rewritten into the self anchor for the name (third
conjunct). -/
theorem C5_wildcard_swallow :
    specOccurs wordChar "a.a".data "z = a a.a".data = true ∧
    (flatEqs (makeinternallinks modelDotSelf)).map Eqn.whole_equation =
      ["z = <a href=\"#a a\" class=\"main_variable\">a a</a>.a"] ∧
    containsSub "<a href=\"#a.a\" class=\"main_variable\">a.a</a>".data
      "z = <a href=\"#a a\" class=\"main_variable\">a a</a>.a".data = false := by
  decide

/-- Claim C5 witness: the no-self-in-variables part instantiated on
`modelSelf`, and the dot-free self-rewrite equation instantiated on the
equation `x = x + 1` with its own name `x`. -/
theorem C5_self_reference_witness :
    ((flatEqs (makeinternallinks modelSelf)).get ⟨0, by decide⟩ ∈
        flatEqs (makeinternallinks modelSelf)) ∧
      ((flatEqs (makeinternallinks modelSelf)).get ⟨0, by decide⟩).name ∉
        ((flatEqs (makeinternallinks modelSelf)).get ⟨0, by decide⟩).variables ∧
      ("x" : String).data ≠ [] ∧ '.' ∉ ("x" : String).data ∧
      ("x" : String) = (mkEqn "x" "x" "x + 1" "x = x + 1").name ∧
      (linkStep (mkEqn "x" "x" "x + 1" "x = x + 1") "x").whole_equation =
        ⟨specSelfRewrite ("x" : String).data
          (mkEqn "x" "x" "x + 1" "x = x + 1").whole_equation.data⟩ :=
  ⟨by decide,
   C5_self_reference.1 modelSelf
     ((flatEqs (makeinternallinks modelSelf)).get ⟨0, by decide⟩) (by decide),
   by decide, by decide, by decide,
   C5_self_reference.2.1 (mkEqn "x" "x" "x + 1" "x = x + 1") "x"
     (by decide) (by decide) rfl⟩

end TrollDoc
